import Mathlib

/-!
Verification development for the Tab-Content-Extractor / YouTube transcript
summarizer extension.  The JavaScript sources (src/main.js, src/content.js,
src/popup.js) are shallowly embedded below: pure functions become Lean
functions over lists of characters, DOM queries become functions over
explicit page models, and the event-loop scheduler becomes a step function
over an explicit state.  Strings are handled as lists of characters with a
JavaScript-faithful whitespace predicate.
-/

namespace TCE

/-- The set of characters treated as whitespace by JavaScript string
trimming and by the `\s` regexp class used in the sources
(space, tab, LF, CR, VT, FF, NBSP, BOM). -/
def isJsWhitespace (c : Char) : Bool :=
  c.toNat = 32 || c.toNat = 9 || c.toNat = 10 || c.toNat = 13 ||
  c.toNat = 11 || c.toNat = 12 || c.toNat = 160 || c.toNat = 65279

/-- Decimal digit test as used by JavaScript `parseInt` with radix 10. -/
def isDecimalDigit (c : Char) : Bool :=
  48 ≤ c.toNat && c.toNat ≤ 57

/-- Numeric value of a list of decimal digit characters, most significant
first (the accumulation `parseInt` performs over its digit prefix). -/
def digitsVal (l : List Char) : Nat :=
  l.foldl (fun a c => a * 10 + (c.toNat - 48)) 0

/-- Digit-prefix part of JavaScript `parseInt(s, 10)`: the longest prefix
of decimal digits, `none` when that prefix is empty (NaN). -/
def parseDigits (l : List Char) : Option Nat :=
  let ds := l.takeWhile isDecimalDigit
  if ds.isEmpty then none else some (digitsVal ds)

/-- Model of JavaScript `parseInt(s, 10)` as used by
`calculateOffsetInSeconds` (src/main.js:672, src/content.js:266): skip
leading whitespace, read an optional sign, then a decimal digit prefix;
`none` models NaN (no digits found). -/
def jsParseIntL (l : List Char) : Option Int :=
  match l.dropWhile isJsWhitespace with
  | [] => none
  | c :: rest =>
    if c = '-' then (parseDigits rest).map (fun n => -(n : Int))
    else if c = '+' then (parseDigits rest).map (fun n => (n : Int))
    else (parseDigits (c :: rest)).map (fun n => (n : Int))

/-- Model of JavaScript `String.prototype.split` with a single-character
separator, as used by `timestampString.split(':')`
(src/main.js:671): accumulates the current piece and cuts at each
separator; the empty string yields one empty piece. -/
def splitOnCharAux (sep : Char) : List Char → List Char → List (List Char)
  | [], acc => [acc.reverse]
  | c :: rest, acc =>
    if c = sep then acc.reverse :: splitOnCharAux sep rest []
    else splitOnCharAux sep rest (c :: acc)

/-- `s.split(':')` over the characters of `s`. -/
def splitColon (s : String) : List (List Char) :=
  splitOnCharAux ':' s.data []

/-- The weighted sum computed by the loop in `calculateOffsetInSeconds`
(src/main.js:680-683): piece `i` of `n` is scaled by `60^(n-1-i)`. -/
def weightedSum : List Int → Int
  | [] => 0
  | d :: rest => d * (60 : Int) ^ rest.length + weightedSum rest

/-- The `aryTimePieces.map(...)` step of `calculateOffsetInSeconds`
(src/main.js:672-678): parse every piece with `parseInt(piece, 10)`,
failing (`none`) as soon as any piece is NaN. -/
def parsePieces : List (List Char) → Option (List Int)
  | [] => some []
  | p :: rest =>
    match jsParseIntL p, parsePieces rest with
    | some v, some vs => some (v :: vs)
    | _, _ => none

/-- Model of `calculateOffsetInSeconds` (src/main.js:668-686,
src/content.js:261-279): split the timestamp on `:`, parse every piece
with `parseInt(piece, 10)` failing (`none`) if any piece is NaN, then sum
the pieces scaled by descending powers of 60. -/
def calculateOffsetInSeconds (timestampString : String) : Option Int :=
  match parsePieces (splitColon timestampString) with
  | none => none
  | some ints => some (weightedSum ints)

/-- A string all of whose characters are decimal digits, and nonempty:
the claims speak of timestamp segments that are "numeric". -/
def isNumericSegment (l : List Char) : Bool :=
  !l.isEmpty && l.all isDecimalDigit

/-- The positional sexagesimal value of a list of segment values, most
significant unit first. -/
def sexagesimalValue (ds : List Int) : Int :=
  ds.foldl (fun a d => a * 60 + d) 0

/-- Model of JavaScript `String.prototype.trim` over characters: remove
leading and trailing JS whitespace. -/
def jsTrimL (cs : List Char) : List Char :=
  ((cs.dropWhile isJsWhitespace).reverse.dropWhile isJsWhitespace).reverse

/-- Model of `isEmptyOrWhitespaceString` (src/main.js:74-81): the string
matches `^[\s\xa0]*$`, i.e. every character is JS whitespace. -/
def isEmptyOrWhitespaceStringL (cs : List Char) : Bool :=
  cs.all isJsWhitespace

/-- Computed style of a DOM element, restricted to the three properties
`isElementVisible` inspects. -/
structure ElemStyle where
  display : String
  visibility : String
  opacity : String
deriving DecidableEq

/-- The per-style hidden test from `isElementVisible` (src/main.js:539,
src/content.js:132): hidden when display is none, visibility is hidden,
or opacity is the string 0. -/
def styleHidden (s : ElemStyle) : Bool :=
  s.display = "none" || s.visibility = "hidden" || s.opacity = "0"

/-- A button element as inspected by `findButtonByAriaLabel`: its
aria-label attribute (absent = `none`), its own computed style, and the
computed styles of its ancestors from parent upward. -/
structure ButtonElem where
  ariaLabel : Option String
  style : ElemStyle
  ancestorStyles : List ElemStyle
deriving DecidableEq

/-- Model of `isElementVisible` (src/main.js:533-554,
src/content.js:126-147): the element is visible when neither its own
style nor any ancestor style is hidden. -/
def isElementVisible (b : ButtonElem) : Bool :=
  !styleHidden b.style && b.ancestorStyles.all (fun st => !styleHidden st)

/-- Errors raised by the element locator. -/
inductive LocatorErr where
  | emptyLabel
  | ambiguousUIState
deriving DecidableEq

/-- Model of `findButtonByAriaLabel` (src/main.js:496-523,
src/content.js:89-116): filter all buttons by exact aria-label match and
visibility; throw when the label is empty or when more than one visible
button matches; return the single match, or `none` when there is no
match. -/
def findButtonByAriaLabel (labelText : String) (buttons : List ButtonElem) :
    Except LocatorErr (Option ButtonElem) :=
  if labelText = "" then .error .emptyLabel
  else
    let matchingButtons := buttons.filter
      (fun b => b.ariaLabel = some labelText && isElementVisible b)
    if 1 < matchingButtons.length then .error .ambiguousUIState
    else .ok matchingButtons.head?

/-- Result of one `findButtonByAriaLabel` query against the live page:
no visible match, exactly one, or more than one (which raises). -/
inductive LocateResult where
  | missing
  | one
  | many
deriving DecidableEq

/-- Observable DOM side effects performed by the reveal phase of
`getTranscript_async` (src/main.js:1090-1180). -/
inductive RevealEffect where
  | chatRemoved
  | panelsShown
  | expandosClicked
  | transcriptBtnClicked
deriving DecidableEq

/-- Errors raised by the reveal phase of `getTranscript_async`. -/
inductive RevealErr where
  | ambiguousButton
  | noExpandoButtons
deriving DecidableEq

/-- Terminal outcome of the reveal phase when it does not raise. -/
inductive RevealOutcome where
  | found
  | notFound
deriving DecidableEq

/-- The page as observed by the successive queries of the reveal phase of
`getTranscript_async`.  `locate1` .. `locate4` are the results of the four
`findButtonByAriaLabel('Show transcript')` calls in source order;
`hasChat` is whether `removeChatContainer` finds the chat container;
`expandosPresent` is whether `findElementByTagNameAndText('tp-yt-paper-button',
'...more')` finds any visible button; `panels1`/`panels2` are the numbers
of engagement panels the two possible `showTranscriptDiv` calls restyle. -/
structure RevealPage where
  locate1 : LocateResult
  hasChat : Bool
  panels1 : Nat
  locate2 : LocateResult
  expandosPresent : Bool
  locate3 : LocateResult
  panels2 : Nat
  locate4 : LocateResult
deriving DecidableEq

/-- Model of the reveal phase of `getTranscript_async`
(src/main.js:1090-1180, src/content.js:377-467): try to locate the
transcript trigger directly; failing that remove the chat container (when
present) and force the transcript div visible, then retry; failing that
click all expando buttons and retry, with a final forced show and retry —
but when no expando buttons exist at that point the whole acquisition
throws.  Returns the list of DOM mutations performed together with either
an error or the terminal outcome. -/
def getTranscriptReveal (p : RevealPage) :
    List RevealEffect × Except RevealErr RevealOutcome :=
  match p.locate1 with
  | .many => ([], .error .ambiguousButton)
  | .one => ([.transcriptBtnClicked], .ok .found)
  | .missing =>
    let efs1 : List RevealEffect :=
      if p.hasChat then
        [.chatRemoved] ++ (if 0 < p.panels1 then [.panelsShown] else [])
      else []
    match p.locate2 with
    | .many => (efs1, .error .ambiguousButton)
    | .one => (efs1 ++ [.transcriptBtnClicked], .ok .found)
    | .missing =>
      if p.expandosPresent then
        let efs2 := efs1 ++ [.expandosClicked]
        match p.locate3 with
        | .many => (efs2, .error .ambiguousButton)
        | .one => (efs2 ++ [.transcriptBtnClicked], .ok .found)
        | .missing =>
          let efs3 := efs2 ++ (if 0 < p.panels2 then [.panelsShown] else [])
          match p.locate4 with
          | .many => (efs3, .error .ambiguousButton)
          | .one => (efs3 ++ [.transcriptBtnClicked], .ok .found)
          | .missing => (efs3, .ok .notFound)
      else (efs1, .error .noExpandoButtons)

/-- A page with no transcript trigger, no chat container, and no expando
buttons: every locate fails and there is nothing to remove or show. -/
def emptyRevealPage : RevealPage :=
  { locate1 := .missing, hasChat := false, panels1 := 0,
    locate2 := .missing, expandosPresent := false,
    locate3 := .missing, panels2 := 0, locate4 := .missing }

/-- `MAX_EMPTY_CONTIGUOUS_TRANSCRIPT_LINES` (src/main.js:422,
src/content.js:15). -/
def MAX_EMPTY_CONTIGUOUS_TRANSCRIPT_LINES : Nat := 5

/-- The raw parser output walked by the assembly loop of
`getTranscript_async` (src/main.js:1216-1242): text, timestamp label and
numeric offset, none of them validated yet. -/
structure RawTranscriptEntry where
  transcriptText : String
  timestampString : String
  offsetInSeconds : Int
deriving DecidableEq

/-- A validated transcript line as constructed by the `TranscriptLine`
constructor (src/main.js:788-833). -/
structure TranscriptLine where
  transcriptText : String
  timestampString : String
  offsetInSeconds : Int
deriving DecidableEq

/-- Errors the assembly loop can raise. -/
inductive AssembleErr where
  | tooManyEmptyLines
  | invalidLine
deriving DecidableEq

/-- The trimmed text of a raw entry is empty (the
`useTranscriptText.length < 1` branch of the assembly loop). -/
def entryTextEmpty (e : RawTranscriptEntry) : Bool :=
  (jsTrimL e.transcriptText.data).isEmpty

/-- The `TranscriptLine` constructor validation for the fields not
derived from the entry text: a non-whitespace timestamp label and a
non-negative integral offset (src/main.js:810-814). -/
def entryFieldsValid (e : RawTranscriptEntry) : Bool :=
  !isEmptyOrWhitespaceStringL e.timestampString.data && 0 ≤ e.offsetInSeconds

/-- The `TranscriptLine` built from a non-empty raw entry: the trimmed
text together with the entry's label and offset (src/main.js:1237-1238). -/
def mkTranscriptLine (e : RawTranscriptEntry) : TranscriptLine :=
  { transcriptText := String.mk (jsTrimL e.transcriptText.data),
    timestampString := e.timestampString,
    offsetInSeconds := e.offsetInSeconds }

/-- The assembly walk of `getTranscript_async` (src/main.js:1214-1242,
src/content.js:501-529) with its running counter of contiguous empty
lines: an empty-text entry increments the counter and is dropped, raising
once the counter exceeds `MAX_EMPTY_CONTIGUOUS_TRANSCRIPT_LINES`; a
non-empty entry resets the counter and is appended after the
`TranscriptLine` constructor validation. -/
def assembleGo (count : Nat) (acc : List TranscriptLine) :
    List RawTranscriptEntry → Except AssembleErr (List TranscriptLine)
  | [] => .ok acc
  | e :: rest =>
    if entryTextEmpty e then
      if MAX_EMPTY_CONTIGUOUS_TRANSCRIPT_LINES < count + 1 then
        .error .tooManyEmptyLines
      else assembleGo (count + 1) acc rest
    else
      if entryFieldsValid e then
        assembleGo 0 (acc ++ [mkTranscriptLine e]) rest
      else .error .invalidLine

/-- The whole assembly walk starting from a zero counter and an empty
line array, as `getTranscript_async` does. -/
def assembleTranscriptLines (entries : List RawTranscriptEntry) :
    Except AssembleErr (List TranscriptLine) :=
  assembleGo 0 [] entries

/-- Does some suffix of the list start with at least six contiguous
empty-text entries?  (`six = MAX_EMPTY_CONTIGUOUS_TRANSCRIPT_LINES + 1`.) -/
def leadingEmpties : List RawTranscriptEntry → Nat
  | [] => 0
  | e :: rest => if entryTextEmpty e then leadingEmpties rest + 1 else 0

/-- True when the entry list contains six contiguous empty-text entries
somewhere. -/
def hasSixContiguousEmpties : List RawTranscriptEntry → Bool
  | [] => false
  | e :: rest =>
    6 ≤ leadingEmpties (e :: rest) || hasSixContiguousEmpties rest

/-- The lines the walk appends when it does not raise: the non-empty
entries, in order, converted by the constructor. -/
def cleanedLines (entries : List RawTranscriptEntry) : List TranscriptLine :=
  (entries.filter (fun e => !entryTextEmpty e)).map mkTranscriptLine

/-- Scanning for the closing bracket of a lazy `\[.*?\]` match: the next
`]` reachable without crossing a line terminator (`.` does not match line
terminators in JavaScript).  Returns the suffix after that `]`. -/
def findCloseBracket : List Char → Option (List Char)
  | [] => none
  | c :: rest =>
    if c = ']' then some rest
    else if c.toNat = 10 || c.toNat = 13 || c.toNat = 8232 || c.toNat = 8233
    then none
    else findCloseBracket rest

/-- Fuelled model of `replace(/\[.*?\]/g, '')`
(src/main.js:949): scanning left to right, each `[` that has a reachable
`]` opens a lazy match ending at the nearest such `]`; the match is
deleted and scanning resumes after it; a `[` with no reachable `]` is
kept.  Fuel at least the list length makes the recursion total. -/
def removeBracketedFuel : Nat → List Char → List Char
  | 0, l => l
  | _ + 1, [] => []
  | fuel + 1, c :: rest =>
    if c = '[' then
      match findCloseBracket rest with
      | some rest2 => removeBracketedFuel fuel rest2
      | none => c :: removeBracketedFuel fuel rest
    else c :: removeBracketedFuel fuel rest

/-- `replace(/\[.*?\]/g, '')` over a character list. -/
def removeBracketed (cs : List Char) : List Char :=
  removeBracketedFuel cs.length cs

/-- The per-line cleaning step of `getConcatenatedTextWithoutTimestamps`
(src/main.js:946-949): trim, delete the lazy bracketed matches, trim
again. -/
def cleanLineText (cs : List Char) : List Char :=
  jsTrimL (removeBracketed (jsTrimL cs))

/-- One iteration of the fold in `getConcatenatedTextWithoutTimestamps`
(src/main.js:940-959): clean the line text; when the result is non-empty
append it, preceded by a space if the accumulator is non-empty and does
not already end in a space. -/
def concatStep (acc : List Char) (t : List Char) : List Char :=
  let t2 := cleanLineText t
  if t2.isEmpty then acc
  else if acc.isEmpty then acc ++ t2
  else if acc.getLast? = some ' ' then acc ++ t2
  else acc ++ ' ' :: t2

/-- The fold of `getConcatenatedTextWithoutTimestamps` over the line
texts, starting from the empty accumulator. -/
def concatTexts (ts : List (List Char)) : List Char :=
  ts.foldl concatStep []

/-- Model of `TranscriptGrabbed.getConcatenatedTextWithoutTimestamps`
(src/main.js:931-962): fold over the lines, cleaning each text and
appending the non-empty results, separated by a space whenever the
accumulator is non-empty and does not already end in a space. -/
def getConcatenatedTextWithoutTimestamps (lines : List TranscriptLine) : String :=
  String.mk (concatTexts (lines.map (fun l => l.transcriptText.data)))

/-- The cleaned line texts that survive the walk: each text trimmed,
bracket-stripped and trimmed again, keeping only the non-empty results. -/
def cleanedTextsOf (ts : List (List Char)) : List (List Char) :=
  (ts.map cleanLineText).filter (fun c => !c.isEmpty)

/-- The separator-inserting join step the fold reduces to on cleaned
texts: append the next text, preceded by a space unless the accumulator
is still empty. -/
def stepJoin (acc : List Char) (c : List Char) : List Char :=
  if acc.isEmpty then c else acc ++ ' ' :: c

/-- Join character lists with single spaces (the flattening the claim
about `getConcatenatedTextWithoutTimestamps` describes). -/
def joinSpace : List (List Char) → List Char
  | [] => []
  | [x] => x
  | x :: y :: xs => x ++ ' ' :: joinSpace (y :: xs)

/-- Does the character list contain a bracketed span, i.e. a `[` followed
somewhere later by a `]`? -/
def hasBracketedSpan : List Char → Bool
  | [] => false
  | c :: rest => (c = '[' && rest.contains ']') || hasBracketedSpan rest

/-- Splitting a text into sentence-like segments over `.`, `!`, `?` as
soft boundaries, each segment retaining its trailing punctuation; a final
unpunctuated remainder forms the last segment.
Modelled from the spec: the TextChunker component (spec 4.6) is absent
from the sources; this follows the algorithm description there. -/
def splitSentencesAux : List Char → List Char → List (List Char)
  | [], acc => if acc.isEmpty then [] else [acc.reverse]
  | c :: rest, acc =>
    if c = '.' || c = '!' || c = '?' then
      (acc.reverse ++ [c]) :: splitSentencesAux rest []
    else splitSentencesAux rest (c :: acc)

/-- Word splitting: maximal runs of non-whitespace characters. -/
def wordsAux : List Char → List Char → List (List Char)
  | [], acc => if acc.isEmpty then [] else [acc.reverse]
  | c :: rest, acc =>
    if isJsWhitespace c then
      if acc.isEmpty then wordsAux rest []
      else acc.reverse :: wordsAux rest []
    else wordsAux rest (c :: acc)

/-- Fuelled grouping of a list into blocks of `n` (the last one possibly
shorter); with fuel at least the list length this is total grouping.
Modelled from the spec: the budget-sized word-group split of an oversize
sentence (spec 4.6). -/
def groupsOfGo (n : Nat) : Nat → List α → List (List α)
  | _, [] => []
  | 0, _ :: _ => []
  | fuel + 1, x :: xs =>
    (x :: xs.take (n - 1)) :: groupsOfGo n fuel (xs.drop (n - 1))

/-- Group a list into blocks of at most `n` elements, in order. -/
def groupsOf (n : Nat) (l : List α) : List (List α) :=
  groupsOfGo n l.length l

/-- Greedy packing of sentence segments (as word lists) under the word
budget.  Modelled from the spec: TextChunker (spec 4.6) — an oversize
segment is split into budget-sized word groups (closing the current chunk
first); otherwise a segment that would overflow the current chunk closes
it and starts the next; otherwise it joins the current chunk. -/
def packLoop (budget : Nat) :
    List (List (List Char)) → List (List Char) → List (List (List Char))
  | [], cur => if cur.isEmpty then [] else [cur]
  | seg :: rest, cur =>
    if budget < seg.length then
      (if cur.isEmpty then [] else [cur]) ++ groupsOf budget seg ++
        packLoop budget rest []
    else if budget < cur.length + seg.length then
      cur :: packLoop budget rest seg
    else packLoop budget rest (cur ++ seg)

/-- Modelled from the spec: `chunk(text, maxWordsPerChunk)` of the
TextChunker component (spec 4.6), which is absent from the sources.
Splits the text into sentence-like segments over `.!?`, takes each
segment's words, and greedily packs the segments under the word budget,
splitting an oversize segment into budget-sized word groups.  A chunk is
its ordered word sequence (spec 3: a TextChunk is an ordered sequence of
non-empty strings). -/
def chunk (text : String) (maxWordsPerChunk : Nat) : List (List String) :=
  let segs := splitSentencesAux text.data []
  let segWords := segs.map (fun seg => wordsAux seg [])
  (packLoop maxWordsPerChunk segWords []).map
    (fun ws => ws.map (fun w => String.mk w))

/-- State of the debounced summarization scheduler built by
`initializeApplication` (src/main.js:1299-1338): the id counter for fresh
timers, the `timeout` variable (last created timer id), the pending
timers actually alive, the number of summarization runs started and not
yet settled, and the text of the `output` element. -/
structure SchedState where
  nextId : Nat
  savedTimer : Option Nat
  pendingTimers : List Nat
  runsInFlight : Nat
  outputText : String
deriving DecidableEq

/-- Events of the event-loop model: an input/change event (which runs
`scheduleSummarization`), a pending timer firing (which starts the async
summarization callback), and a run settling with a summary or with a
failure. -/
inductive SchedEvent where
  | input
  | fire
  | completeOk (s : String)
  | completeFail
deriving DecidableEq

/-- One step of the event-loop model of `scheduleSummarization`
(src/main.js:1305-1320).  `input`: `clearTimeout(timeout)` cancels the
saved timer when still pending, then a fresh timer is created and saved.
`fire`: the earliest pending timer fires; the callback first writes
`Generating summary...` to the output, then awaits session creation and
`summarize`.  `completeOk s`: a run resolves and writes its summary.
`completeFail`: a run rejects; the callback has no handler, so nothing
further is written. -/
def schedStep (st : SchedState) (e : SchedEvent) : SchedState :=
  match e with
  | .input =>
    let cleared :=
      match st.savedTimer with
      | some t => st.pendingTimers.filter (fun x => x ≠ t)
      | none => st.pendingTimers
    { st with
      pendingTimers := cleared ++ [st.nextId],
      savedTimer := some st.nextId,
      nextId := st.nextId + 1 }
  | .fire =>
    match st.pendingTimers with
    | [] => st
    | _ :: rest =>
      { st with
        pendingTimers := rest,
        runsInFlight := st.runsInFlight + 1,
        outputText := "Generating summary..." }
  | .completeOk s =>
    if st.runsInFlight = 0 then st
    else { st with runsInFlight := st.runsInFlight - 1, outputText := s }
  | .completeFail =>
    if st.runsInFlight = 0 then st
    else { st with runsInFlight := st.runsInFlight - 1 }

/-- Run the event-loop model over a list of events. -/
def schedExec (init : SchedState) (es : List SchedEvent) : SchedState :=
  es.foldl schedStep init

/-- The scheduler state right after `initializeApplication` installs the
listeners, with the output element showing `out0`. -/
def initSched (out0 : String) : SchedState :=
  { nextId := 0, savedTimer := none, pendingTimers := [],
    runsInFlight := 0, outputText := out0 }

/-- Invariant of the debounce scheduler: at most one timer is pending,
and any pending timer is the one stored in the `timeout` variable. -/
def schedInv (st : SchedState) : Prop :=
  st.pendingTimers.length ≤ 1 ∧
  ∀ t ∈ st.pendingTimers, st.savedTimer = some t

/-- A concrete visible button carrying the transcript trigger label, for
witnesses. -/
def sampleTranscriptButton : ButtonElem :=
  { ariaLabel := some "Show transcript",
    style := { display := "block", visibility := "visible", opacity := "1" },
    ancestorStyles := [] }

/-- A concrete raw entry whose text is whitespace only. -/
def sampleEmptyEntry : RawTranscriptEntry :=
  { transcriptText := " ", timestampString := "0:01", offsetInSeconds := 1 }

/-- A concrete raw entry with non-empty text. -/
def sampleTextEntry : RawTranscriptEntry :=
  { transcriptText := "hello", timestampString := "0:05", offsetInSeconds := 5 }

/-- A concrete transcript line whose text opens a bracket it never
closes. -/
def sampleOpenBracketLine : TranscriptLine :=
  { transcriptText := "[a", timestampString := "0:01", offsetInSeconds := 1 }

/-- A concrete transcript line whose text closes a bracket it never
opened. -/
def sampleCloseBracketLine : TranscriptLine :=
  { transcriptText := "b]", timestampString := "0:02", offsetInSeconds := 2 }

/-- A concrete scheduler state with one summarization run in flight. -/
def sampleInFlightState : SchedState :=
  { nextId := 1, savedTimer := some 0, pendingTimers := [],
    runsInFlight := 1, outputText := "Generating summary..." }

/-! ## Theorems -/

/-- C2 counterexample: on a page with no transcript trigger, no chat
container and no expando buttons, `getTranscript_async` raises the
no-expando-buttons error instead of terminating in the NotFound outcome. -/
theorem reveal_empty_page_raises :
    getTranscriptReveal emptyRevealPage = ([], .error .noExpandoButtons) := rfl

/-- C2 (amended): on every page with no transcript trigger (both locate
attempts fail), no chat container, and no expando buttons, the reveal
phase terminates by raising the no-expando-buttons error, having
performed no DOM mutations. -/
theorem reveal_no_expandos_raises (p : RevealPage)
    (h1 : p.locate1 = .missing) (h2 : p.hasChat = false)
    (h3 : p.locate2 = .missing) (h4 : p.expandosPresent = false) :
    getTranscriptReveal p = ([], .error .noExpandoButtons) := by
  simp [getTranscriptReveal, h1, h2, h3, h4]

/-- Witness for the amended C2 theorem at the concrete empty page. -/
theorem reveal_no_expandos_raises_witness :
    getTranscriptReveal emptyRevealPage = ([], .error .noExpandoButtons) :=
  reveal_no_expandos_raises emptyRevealPage rfl rfl rfl rfl

/-- C5: for every non-empty label and every button list,
`findButtonByAriaLabel` raises on two or more visible matches, returns an
absent result on zero visible matches, and returns the element on exactly
one visible match. -/
theorem findButtonByAriaLabel_spec (labelText : String) (buttons : List ButtonElem)
    (h : labelText ≠ "") :
    (2 ≤ (buttons.filter
        (fun b => b.ariaLabel = some labelText && isElementVisible b)).length →
      findButtonByAriaLabel labelText buttons = .error .ambiguousUIState)
    ∧ ((buttons.filter
        (fun b => b.ariaLabel = some labelText && isElementVisible b)).length = 0 →
      findButtonByAriaLabel labelText buttons = .ok none)
    ∧ (∀ btn, buttons.filter
        (fun b => b.ariaLabel = some labelText && isElementVisible b) = [btn] →
      findButtonByAriaLabel labelText buttons = .ok (some btn)) := by
  unfold findButtonByAriaLabel
  rw [if_neg h]
  refine ⟨fun hge => ?_, fun h0 => ?_, fun btn hbtn => ?_⟩
  · rw [if_pos (by omega)]
  · rw [if_neg (by omega)]
    have : buttons.filter
        (fun b => b.ariaLabel = some labelText && isElementVisible b) = [] :=
      List.length_eq_zero.mp h0
    rw [this]
    rfl
  · rw [hbtn]
    rw [if_neg (by simp)]
    rfl

/-- Witness for C5 at a concrete label and a single visible matching
button. -/
theorem findButtonByAriaLabel_spec_witness :
    findButtonByAriaLabel "Show transcript" [sampleTranscriptButton] =
      .ok (some sampleTranscriptButton) :=
  (findButtonByAriaLabel_spec "Show transcript" [sampleTranscriptButton]
      (by decide)).2.2 sampleTranscriptButton (by decide)

/-- C3 counterexample: a one-entry input whose only text is whitespace
yields a zero-line transcript (`ok []`) — assembly does not fail with an
EmptyTranscript error. -/
theorem assemble_allEmpty_returns_empty :
    assembleTranscriptLines [sampleEmptyEntry] = .ok [] := rfl

/-- C9 counterexample: `"1a"` is a non-numeric colon-separated segment of
`"1a:03"`, yet `calculateOffsetInSeconds` succeeds on it (JavaScript
`parseInt` reads the leading digit and ignores the junk), returning 63. -/
theorem calculateOffset_nonNumeric_segment_succeeds :
    "1a".data ∈ splitColon "1a:03"
    ∧ isNumericSegment "1a".data = false
    ∧ calculateOffsetInSeconds "1a:03" = some 63 :=
  ⟨by decide, by decide, rfl⟩

/-- C7 counterexample: two input events more than a debounce apart let
two summarization runs be in flight at once — exceeding one pending or
in-flight run, so concurrent summarization calls are possible. -/
theorem sched_two_runs_in_flight :
    (schedExec (initSched "old")
      [.input, .fire, .input, .fire]).runsInFlight = 2 := rfl

/-- The scheduler step preserves the debounce invariant: the pending
timer, if any, is exactly the saved one. -/
theorem schedStep_preserves_inv (st : SchedState) (e : SchedEvent)
    (h : schedInv st) : schedInv (schedStep st e) := by
  obtain ⟨hlen, hsaved⟩ := h
  cases e with
  | input =>
    have hcl :
        (match st.savedTimer with
          | some t => st.pendingTimers.filter (fun x => x ≠ t)
          | none => st.pendingTimers) = [] := by
      cases hsv : st.savedTimer with
      | none =>
        cases hp : st.pendingTimers with
        | nil => rfl
        | cons t rest =>
          have := hsaved t (by rw [hp]; exact List.mem_cons_self t rest)
          rw [hsv] at this
          exact absurd this (by simp)
      | some s =>
        simp only []
        rw [List.filter_eq_nil_iff]
        intro x hx
        have := hsaved x hx
        rw [hsv] at this
        simp only [Option.some.injEq] at this
        simp [this]
    have hstep : schedStep st .input =
        { st with
          pendingTimers := [st.nextId]
          savedTimer := some st.nextId
          nextId := st.nextId + 1 } := by
      simp only [schedStep, hcl, List.nil_append]
    rw [hstep]
    exact ⟨by simp, by intro t ht; simp only [List.mem_singleton] at ht; rw [ht]⟩
  | fire =>
    cases hp : st.pendingTimers with
    | nil =>
      have hstep : schedStep st .fire = st := by
        simp [schedStep, hp]
      rw [hstep]
      exact ⟨hlen, hsaved⟩
    | cons t rest =>
      have hr : rest = [] := by
        rw [hp] at hlen
        simp only [List.length_cons] at hlen
        exact List.length_eq_zero.mp (by omega)
      have hstep : schedStep st .fire =
          { st with
            pendingTimers := rest
            runsInFlight := st.runsInFlight + 1
            outputText := "Generating summary..." } := by
        simp [schedStep, hp]
      rw [hstep, hr]
      exact ⟨by simp, by intro t ht; exact absurd ht (List.not_mem_nil t)⟩
  | completeOk s =>
    simp only [schedStep]
    split
    · exact ⟨hlen, hsaved⟩
    · exact ⟨hlen, hsaved⟩
  | completeFail =>
    simp only [schedStep]
    split
    · exact ⟨hlen, hsaved⟩
    · exact ⟨hlen, hsaved⟩

/-- The debounce invariant holds along every event trace. -/
theorem schedExec_inv (es : List SchedEvent) (st : SchedState)
    (h : schedInv st) : schedInv (schedExec st es) := by
  induction es generalizing st with
  | nil => exact h
  | cons e rest ih =>
    exact ih (schedStep st e) (schedStep_preserves_inv st e h)

/-- C7 (amended): along every event trace from the initial state, at most
one summarization run is pending — a later input event cancels the
pending timer and reschedules it — though runs already in flight are not
cancelled and can overlap. -/
theorem sched_at_most_one_pending (out0 : String) (es : List SchedEvent) :
    (schedExec (initSched out0) es).pendingTimers.length ≤ 1 :=
  (schedExec_inv es (initSched out0) ⟨by simp [initSched], by simp [initSched]⟩).1

/-- C8 counterexample: a failing run does not leave the previously
displayed summary untouched — the callback overwrites the output with
the generating placeholder when the run starts, and the failure writes
nothing further, so the prior summary is gone. -/
theorem sched_failure_overwrites_prior_summary :
    (schedExec (initSched "previous summary")
      [.input, .fire, .completeFail]).outputText = "Generating summary..."
    ∧ (schedExec (initSched "previous summary")
      [.input, .fire, .completeFail]).outputText ≠ "previous summary" :=
  ⟨rfl, by decide⟩

/-- C8 (amended): the failure event itself writes nothing to the output —
whatever the output showed when the run failed (the generating
placeholder written at run start, which replaced any prior summary)
remains displayed; no failure text is shown. -/
theorem schedStep_completeFail_output (st : SchedState)
    (h : 0 < st.runsInFlight) :
    (schedStep st .completeFail).outputText = st.outputText := by
  simp only [schedStep]
  split
  · rfl
  · rfl

/-- Witness for the amended C8 theorem at a concrete state with a run in
flight. -/
theorem schedStep_completeFail_output_witness :
    (schedStep sampleInFlightState .completeFail).outputText =
      "Generating summary..." :=
  schedStep_completeFail_output sampleInFlightState (by decide)

/-- A decimal digit is not JavaScript whitespace. -/
theorem digit_not_ws (c : Char) (h : isDecimalDigit c = true) :
    isJsWhitespace c = false := by
  simp only [isDecimalDigit, Bool.and_eq_true, decide_eq_true_eq] at h
  simp only [isJsWhitespace, Bool.or_eq_false_iff, decide_eq_false_iff_not]
  omega

/-- On a nonempty all-digit segment, `parseDigits` returns its decimal
value. -/
theorem parseDigits_numeric (l : List Char) (h : isNumericSegment l = true) :
    parseDigits l = some (digitsVal l) := by
  simp only [isNumericSegment, Bool.and_eq_true, Bool.not_eq_true', List.all_eq_true] at h
  obtain ⟨hne, hall⟩ := h
  unfold parseDigits
  have htw : l.takeWhile isDecimalDigit = l :=
    List.takeWhile_eq_self_iff.mpr (fun a ha => hall a ha)
  rw [htw, if_neg (by simp [hne])]

/-- On a nonempty all-digit segment, the `parseInt` model returns the
segment's decimal value. -/
theorem jsParseIntL_numeric (l : List Char) (h : isNumericSegment l = true) :
    jsParseIntL l = some ((digitsVal l : Int)) := by
  have h2 := h
  simp only [isNumericSegment, Bool.and_eq_true, Bool.not_eq_true', List.all_eq_true] at h2
  obtain ⟨hne, hall⟩ := h2
  cases hl : l with
  | nil => rw [hl] at hne; simp at hne
  | cons c rest =>
    have hc : isDecimalDigit c = true := by
      apply hall; rw [hl]; exact List.mem_cons_self c rest
    have hcw : isJsWhitespace c = false := digit_not_ws c hc
    have hminus : c ≠ '-' := by
      intro hq; rw [hq] at hc; exact absurd hc (by decide)
    have hplus : c ≠ '+' := by
      intro hq; rw [hq] at hc; exact absurd hc (by decide)
    unfold jsParseIntL
    rw [List.dropWhile_cons, if_neg (by simp [hcw])]
    simp only [if_neg hminus, if_neg hplus]
    rw [← hl, parseDigits_numeric l h]
    rfl

/-- Parsing segments that are all numeric returns their decimal values. -/
theorem parsePieces_numeric (ps : List (List Char))
    (h : ∀ p ∈ ps, isNumericSegment p = true) :
    parsePieces ps = some (ps.map (fun p => (digitsVal p : Int))) := by
  induction ps with
  | nil => rfl
  | cons p rest ih =>
    unfold parsePieces
    rw [jsParseIntL_numeric p (h p (List.mem_cons_self p rest))]
    rw [ih (fun q hq => h q (List.mem_cons_of_mem p hq))]
    rfl

/-- Folding the most-significant-first accumulation from `a` equals `a`
scaled by the full weight plus the weighted sum of the list. -/
theorem foldl_sexa (ds : List Int) :
    ∀ a : Int, ds.foldl (fun x d => x * 60 + d) a =
      a * (60 : Int) ^ ds.length + weightedSum ds := by
  induction ds with
  | nil => intro a; simp [weightedSum]
  | cons d rest ih =>
    intro a
    simp only [List.foldl_cons, weightedSum, List.length_cons]
    rw [ih]
    ring

/-- The positional sexagesimal value coincides with the weighted sum the
code computes. -/
theorem sexagesimalValue_eq_weightedSum (ds : List Int) :
    sexagesimalValue ds = weightedSum ds := by
  unfold sexagesimalValue
  rw [foldl_sexa]
  simp

/-- C1: for every timestamp label all of whose colon-separated segments
are numeric, `calculateOffsetInSeconds` returns the positional
sexagesimal value of the label, most significant unit first. -/
theorem calculateOffsetInSeconds_sexagesimal (ts : String)
    (h : ∀ seg ∈ splitColon ts, isNumericSegment seg = true) :
    calculateOffsetInSeconds ts =
      some (sexagesimalValue
        ((splitColon ts).map (fun seg => (digitsVal seg : Int)))) := by
  unfold calculateOffsetInSeconds
  rw [parsePieces_numeric (splitColon ts) h]
  rw [sexagesimalValue_eq_weightedSum]

/-- Witness for C1 at the spec's example labels: `1:02:03` parses to
3723 and `02:03` to 123. -/
theorem calculateOffsetInSeconds_sexagesimal_witness :
    calculateOffsetInSeconds "1:02:03" = some 3723
    ∧ calculateOffsetInSeconds "02:03" = some 123 :=
  ⟨(calculateOffsetInSeconds_sexagesimal "1:02:03" (by decide)).trans (by rfl),
   (calculateOffsetInSeconds_sexagesimal "02:03" (by decide)).trans (by rfl)⟩

/-- Piece parsing fails exactly when some segment fails to parse. -/
theorem parsePieces_eq_none (ps : List (List Char)) :
    parsePieces ps = none ↔ ∃ p ∈ ps, jsParseIntL p = none := by
  induction ps with
  | nil => simp [parsePieces]
  | cons p rest ih =>
    unfold parsePieces
    cases hp : jsParseIntL p with
    | none => simp [hp]
    | some v =>
      cases hr : parsePieces rest with
      | none =>
        constructor
        · intro _
          obtain ⟨q, hq, hqn⟩ := ih.mp hr
          exact ⟨q, List.mem_cons_of_mem p hq, hqn⟩
        · intro _; rfl
      | some vs =>
        constructor
        · intro hq; exact absurd hq (by simp)
        · rintro ⟨q, hq, hqn⟩
          rcases List.mem_cons.mp hq with hq | hq
          · rw [hq] at hqn; rw [hp] at hqn; exact absurd hqn (by simp)
          · have hex : ∃ x ∈ rest, jsParseIntL x = none := ⟨q, hq, hqn⟩
            have := ih.mpr hex
            rw [hr] at this
            exact absurd this (by simp)

/-- C9 (amended): `calculateOffsetInSeconds` fails exactly when some
colon-separated segment has no parseable leading integer (JavaScript
`parseInt` yields NaN); a segment with trailing junk after a leading
integer does not cause failure. -/
theorem calculateOffsetInSeconds_fails_iff (ts : String) :
    calculateOffsetInSeconds ts = none ↔
      ∃ seg ∈ splitColon ts, jsParseIntL seg = none := by
  unfold calculateOffsetInSeconds
  rw [← parsePieces_eq_none]
  cases h : parsePieces (splitColon ts) <;> simp [h]

/-- The leading run of empty entries is at most the list length. -/
theorem leadingEmpties_le_length (xs : List RawTranscriptEntry) :
    leadingEmpties xs ≤ xs.length := by
  induction xs with
  | nil => simp [leadingEmpties]
  | cons e rest ih =>
    simp only [leadingEmpties, List.length_cons]
    split
    · omega
    · omega

/-- A leading run of six empty entries means the list has six contiguous
empties. -/
theorem hasSix_of_leading (xs : List RawTranscriptEntry)
    (h : 6 ≤ leadingEmpties xs) : hasSixContiguousEmpties xs = true := by
  cases xs with
  | nil => simp [leadingEmpties] at h
  | cons e rest =>
    simp only [hasSixContiguousEmpties, Bool.or_eq_true, decide_eq_true_eq]
    exact Or.inl h

/-- Six contiguous empty entries require at least six entries. -/
theorem hasSix_length (xs : List RawTranscriptEntry)
    (h : hasSixContiguousEmpties xs = true) : 6 ≤ xs.length := by
  induction xs with
  | nil => simp [hasSixContiguousEmpties] at h
  | cons e rest ih =>
    simp only [hasSixContiguousEmpties, Bool.or_eq_true, decide_eq_true_eq] at h
    rcases h with h | h
    · have hle := leadingEmpties_le_length (e :: rest)
      simp only [List.length_cons] at hle ⊢
      omega
    · have := ih h
      simp only [List.length_cons]
      omega

/-- Full characterisation of the assembly walk from an arbitrary counter
value: it raises exactly when the counter plus the leading empty run
reaches six or a later run of six contiguous empties occurs; otherwise it
appends the cleaned lines. -/
theorem assembleGo_spec (xs : List RawTranscriptEntry) :
    ∀ (count : Nat) (acc : List TranscriptLine),
    count ≤ MAX_EMPTY_CONTIGUOUS_TRANSCRIPT_LINES →
    (∀ e ∈ xs, entryTextEmpty e = false → entryFieldsValid e = true) →
    assembleGo count acc xs =
      if 6 ≤ count + leadingEmpties xs ∨ hasSixContiguousEmpties xs = true
      then .error .tooManyEmptyLines
      else .ok (acc ++ cleanedLines xs) := by
  induction xs with
  | nil =>
    intro count acc hc _
    simp only [MAX_EMPTY_CONTIGUOUS_TRANSCRIPT_LINES] at hc
    rw [if_neg (by simp [leadingEmpties, hasSixContiguousEmpties]; omega)]
    simp [assembleGo, cleanedLines]
  | cons e rest ih =>
    intro count acc hc hwf
    simp only [MAX_EMPTY_CONTIGUOUS_TRANSCRIPT_LINES] at hc
    by_cases he : entryTextEmpty e = true
    · have hL : leadingEmpties (e :: rest) = leadingEmpties rest + 1 := by
        simp [leadingEmpties, he]
      have hS : hasSixContiguousEmpties (e :: rest) =
          (decide (6 ≤ leadingEmpties rest + 1) || hasSixContiguousEmpties rest) := by
        simp [hasSixContiguousEmpties, hL]
      unfold assembleGo
      rw [if_pos he]
      by_cases h6 : MAX_EMPTY_CONTIGUOUS_TRANSCRIPT_LINES < count + 1
      · simp only [MAX_EMPTY_CONTIGUOUS_TRANSCRIPT_LINES] at h6
        rw [if_pos (by simp only [MAX_EMPTY_CONTIGUOUS_TRANSCRIPT_LINES]; omega)]
        rw [if_pos (by rw [hL]; omega)]
      · simp only [MAX_EMPTY_CONTIGUOUS_TRANSCRIPT_LINES] at h6
        rw [if_neg (by simp only [MAX_EMPTY_CONTIGUOUS_TRANSCRIPT_LINES]; omega)]
        rw [ih (count + 1) acc
          (by simp only [MAX_EMPTY_CONTIGUOUS_TRANSCRIPT_LINES]; omega)
          (fun q hq => hwf q (List.mem_cons_of_mem e hq))]
        have hiff : (6 ≤ count + 1 + leadingEmpties rest ∨
            hasSixContiguousEmpties rest = true)
            ↔ (6 ≤ count + leadingEmpties (e :: rest) ∨
               hasSixContiguousEmpties (e :: rest) = true) := by
          rw [hL, hS]
          simp only [Bool.or_eq_true, decide_eq_true_eq]
          constructor
          · rintro (h | h)
            · exact Or.inl (by omega)
            · exact Or.inr (Or.inr h)
          · rintro (h | h | h)
            · exact Or.inl (by omega)
            · exact Or.inl (by omega)
            · exact Or.inr h
        rw [if_congr hiff rfl rfl]
        have hclean : cleanedLines (e :: rest) = cleanedLines rest := by
          simp [cleanedLines, he]
        rw [hclean]
    · have hef : entryTextEmpty e = false := by simpa using he
      have hv : entryFieldsValid e = true :=
        hwf e (List.mem_cons_self e rest) hef
      have hL : leadingEmpties (e :: rest) = 0 := by
        simp [leadingEmpties, hef]
      have hS : hasSixContiguousEmpties (e :: rest) =
          hasSixContiguousEmpties rest := by
        simp [hasSixContiguousEmpties, hL]
      unfold assembleGo
      rw [if_neg (by simp [hef])]
      rw [if_pos hv]
      rw [ih 0 (acc ++ [mkTranscriptLine e])
        (by simp [MAX_EMPTY_CONTIGUOUS_TRANSCRIPT_LINES])
        (fun q hq => hwf q (List.mem_cons_of_mem e hq))]
      have hiff : (6 ≤ 0 + leadingEmpties rest ∨
          hasSixContiguousEmpties rest = true)
          ↔ (6 ≤ count + leadingEmpties (e :: rest) ∨
             hasSixContiguousEmpties (e :: rest) = true) := by
        rw [hL, hS]
        constructor
        · rintro (h | h)
          · exact Or.inr (hasSix_of_leading rest (by omega))
          · exact Or.inr h
        · rintro (h | h)
          · omega
          · exact Or.inr h
      rw [if_congr hiff rfl rfl]
      have hclean : cleanedLines (e :: rest) =
          mkTranscriptLine e :: cleanedLines rest := by
        simp [cleanedLines, hef]
      rw [hclean]
      simp

/-- C4: the assembly walk maintains its counter of contiguous empty
texts — non-empty entries reset it and are appended, empty entries
increment it and are dropped — failing with the too-many-empty-lines
error exactly when six contiguous empty entries occur, and succeeding
(with the non-empty entries in order) when every empty run has length at
most five. -/
theorem assemble_contiguous_empty_boundary (xs : List RawTranscriptEntry)
    (hwf : ∀ e ∈ xs, entryTextEmpty e = false → entryFieldsValid e = true) :
    (hasSixContiguousEmpties xs = true →
      assembleTranscriptLines xs = .error .tooManyEmptyLines)
    ∧ (hasSixContiguousEmpties xs = false →
      assembleTranscriptLines xs = .ok (cleanedLines xs)) := by
  have hspec := assembleGo_spec xs 0 []
    (by simp [MAX_EMPTY_CONTIGUOUS_TRANSCRIPT_LINES]) hwf
  unfold assembleTranscriptLines
  constructor
  · intro h6
    rw [hspec, if_pos (Or.inr h6)]
  · intro h6
    rw [hspec, if_neg ?_]
    · simp
    · rintro (hL | hS)
      · have := hasSix_of_leading xs (by omega)
        rw [h6] at this
        exact absurd this (by simp)
      · rw [h6] at hS
        exact absurd hS (by simp)

/-- Witness for C4: six contiguous whitespace-only entries fail with the
too-many-empty-lines error, while exactly five succeed. -/
theorem assemble_contiguous_empty_boundary_witness :
    assembleTranscriptLines (List.replicate 6 sampleEmptyEntry) =
      .error .tooManyEmptyLines
    ∧ assembleTranscriptLines (List.replicate 5 sampleEmptyEntry) = .ok [] :=
  ⟨(assemble_contiguous_empty_boundary (List.replicate 6 sampleEmptyEntry)
      (by decide)).1 (by decide),
   (assemble_contiguous_empty_boundary (List.replicate 5 sampleEmptyEntry)
      (by decide)).2 (by decide)⟩

/-- All-empty input has a leading empty run equal to its length. -/
theorem leadingEmpties_allEmpty (xs : List RawTranscriptEntry)
    (h : ∀ e ∈ xs, entryTextEmpty e = true) :
    leadingEmpties xs = xs.length := by
  induction xs with
  | nil => simp [leadingEmpties]
  | cons e rest ih =>
    simp only [leadingEmpties, List.length_cons]
    rw [if_pos (h e (List.mem_cons_self e rest))]
    rw [ih (fun q hq => h q (List.mem_cons_of_mem e hq))]

/-- All-empty input contributes no cleaned lines. -/
theorem cleanedLines_allEmpty (xs : List RawTranscriptEntry)
    (h : ∀ e ∈ xs, entryTextEmpty e = true) : cleanedLines xs = [] := by
  unfold cleanedLines
  have : xs.filter (fun e => !entryTextEmpty e) = [] := by
    rw [List.filter_eq_nil_iff]
    intro e he
    simp [h e he]
  rw [this]
  rfl

/-- C3 (amended): an input whose texts are all empty or whitespace-only
does not fail with an EmptyTranscript error — with at most five entries
the walk returns a zero-line transcript, and with six or more it fails
with the too-many-empty-lines error instead. -/
theorem assemble_allEmpty_spec (xs : List RawTranscriptEntry)
    (hall : ∀ e ∈ xs, entryTextEmpty e = true) :
    (xs.length ≤ 5 → assembleTranscriptLines xs = .ok [])
    ∧ (6 ≤ xs.length →
      assembleTranscriptLines xs = .error .tooManyEmptyLines) := by
  have hwf : ∀ e ∈ xs, entryTextEmpty e = false → entryFieldsValid e = true := by
    intro e he hne
    have := hall e he
    rw [hne] at this
    exact absurd this (by simp)
  have hspec := assembleGo_spec xs 0 []
    (by simp [MAX_EMPTY_CONTIGUOUS_TRANSCRIPT_LINES]) hwf
  unfold assembleTranscriptLines
  have hlead := leadingEmpties_allEmpty xs hall
  constructor
  · intro hlen
    rw [hspec, if_neg ?_]
    · rw [cleanedLines_allEmpty xs hall]
      rfl
    · rintro (hL | hS)
      · omega
      · have := hasSix_length xs hS
        omega
  · intro hlen
    rw [hspec, if_pos (Or.inl (by omega))]

/-- Witness for the amended C3 theorem: three whitespace-only entries
assemble to a zero-line transcript without error. -/
theorem assemble_allEmpty_spec_witness :
    assembleTranscriptLines (List.replicate 3 sampleEmptyEntry) = .ok [] :=
  (assemble_allEmpty_spec (List.replicate 3 sampleEmptyEntry)
    (by decide)).1 (by decide)

/-- Wrapping a character list in a string leaves its characters intact. -/
theorem data_of_mk (w : List Char) : (String.mk w).data = w := rfl

/-- Sentence splitting loses no characters: flattening the segments
restores the pending accumulator followed by the input. -/
theorem splitSentencesAux_join :
    ∀ (cs acc : List Char),
      (splitSentencesAux cs acc).flatten = acc.reverse ++ cs := by
  intro cs
  induction cs with
  | nil =>
    intro acc
    unfold splitSentencesAux
    cases hacc : acc.isEmpty with
    | true =>
      rw [if_pos rfl]
      rw [List.isEmpty_iff.mp hacc]
      rfl
    | false => simp
  | cons c rest ih =>
    intro acc
    unfold splitSentencesAux
    by_cases hc : (c = '.' || c = '!' || c = '?') = true
    · rw [if_pos hc]
      simp only [List.flatten_cons, ih []]
      simp
    · rw [if_neg hc]
      rw [ih (c :: acc)]
      simp

/-- Word splitting keeps exactly the non-whitespace characters, in
order. -/
theorem wordsAux_join :
    ∀ (cs acc : List Char),
      (wordsAux cs acc).flatten =
        acc.reverse ++ cs.filter (fun c => !isJsWhitespace c) := by
  intro cs
  induction cs with
  | nil =>
    intro acc
    unfold wordsAux
    cases hacc : acc.isEmpty with
    | true =>
      rw [if_pos rfl]
      rw [List.isEmpty_iff.mp hacc]
      rfl
    | false => simp
  | cons c rest ih =>
    intro acc
    unfold wordsAux
    by_cases hw : isJsWhitespace c = true
    · rw [if_pos hw]
      cases hacc : acc.isEmpty with
      | true =>
        rw [if_pos rfl, ih []]
        rw [List.isEmpty_iff.mp hacc]
        simp [List.filter_cons, hw]
      | false =>
        rw [if_neg (by simp [hacc])]
        simp only [List.flatten_cons, ih []]
        simp [List.filter_cons, hw]
    · rw [if_neg hw, ih (c :: acc)]
      simp only [List.reverse_cons, List.filter_cons]
      have : isJsWhitespace c = false := by simpa using hw
      simp [this]

/-- Fuelled grouping loses no elements once the fuel covers the list. -/
theorem groupsOfGo_join (n : Nat) :
    ∀ (fuel : Nat) (l : List (List Char)), l.length ≤ fuel →
      (groupsOfGo n fuel l).flatten = l := by
  intro fuel
  induction fuel with
  | zero =>
    intro l hl
    have : l = [] := List.eq_nil_of_length_eq_zero (by omega)
    rw [this]
    rfl
  | succ f ih =>
    intro l hl
    cases l with
    | nil => rfl
    | cons x xs =>
      unfold groupsOfGo
      simp only [List.flatten_cons]
      rw [ih (xs.drop (n - 1)) (by
        rw [List.length_drop]
        simp only [List.length_cons] at hl
        omega)]
      simp [List.take_append_drop]

/-- Every fuelled group has at most `n` elements when `n` is positive. -/
theorem groupsOfGo_mem_length (n : Nat) (hn : 1 ≤ n) :
    ∀ (fuel : Nat) (l : List (List Char)) (ch : List (List Char)),
      ch ∈ groupsOfGo n fuel l → ch.length ≤ n := by
  intro fuel
  induction fuel with
  | zero =>
    intro l ch hch
    cases l with
    | nil => exact absurd hch (List.not_mem_nil ch)
    | cons x xs => exact absurd hch (List.not_mem_nil ch)
  | succ f ih =>
    intro l ch hch
    cases l with
    | nil => exact absurd hch (List.not_mem_nil ch)
    | cons x xs =>
      unfold groupsOfGo at hch
      rcases List.mem_cons.mp hch with hch | hch
      · rw [hch]
        simp only [List.length_cons, List.length_take]
        omega
      · exact ih (xs.drop (n - 1)) ch hch

/-- Greedy packing loses no words: flattening all chunks restores the
current chunk followed by all segment words in order. -/
theorem packLoop_join (b : Nat) (hb : 1 ≤ b) :
    ∀ (segs : List (List (List Char))) (cur : List (List Char)),
      (packLoop b segs cur).flatten = cur ++ segs.flatten := by
  intro segs
  induction segs with
  | nil =>
    intro cur
    unfold packLoop
    cases hc : cur.isEmpty with
    | true =>
      rw [if_pos rfl]
      rw [List.isEmpty_iff.mp hc]
      rfl
    | false => simp
  | cons seg rest ih =>
    intro cur
    unfold packLoop
    by_cases h1 : b < seg.length
    · rw [if_pos h1]
      simp only [List.flatten_append, groupsOf]
      rw [groupsOfGo_join b seg.length seg (le_refl seg.length)]
      rw [ih []]
      have hflush : (if cur.isEmpty then ([] : List (List (List Char)))
          else [cur]).flatten = cur := by
        cases hc : cur.isEmpty with
        | true =>
          rw [if_pos rfl]
          rw [List.isEmpty_iff.mp hc]
          rfl
        | false => simp
      rw [hflush]
      simp [List.flatten_cons, List.append_assoc]
    · by_cases h2 : b < cur.length + seg.length
      · rw [if_neg h1, if_pos h2]
        simp only [List.flatten_cons]
        rw [ih seg]
      · rw [if_neg h1, if_neg h2]
        rw [ih (cur ++ seg)]
        simp [List.append_assoc]

/-- Every chunk produced by greedy packing respects the word budget,
provided the chunk under construction does. -/
theorem packLoop_mem_length (b : Nat) (hb : 1 ≤ b) :
    ∀ (segs : List (List (List Char))) (cur ch : List (List Char)),
      cur.length ≤ b → ch ∈ packLoop b segs cur → ch.length ≤ b := by
  intro segs
  induction segs with
  | nil =>
    intro cur ch hcur hch
    unfold packLoop at hch
    cases hc : cur.isEmpty with
    | true =>
      rw [if_pos (by rw [hc])] at hch
      exact absurd hch (List.not_mem_nil ch)
    | false =>
      rw [if_neg (by rw [hc]; simp)] at hch
      rw [List.mem_singleton.mp hch]
      exact hcur
  | cons seg rest ih =>
    intro cur ch hcur hch
    unfold packLoop at hch
    by_cases h1 : b < seg.length
    · rw [if_pos h1] at hch
      rcases List.mem_append.mp hch with hch | hch
      · rcases List.mem_append.mp hch with hch | hch
        · cases hc : cur.isEmpty with
          | true =>
            rw [if_pos (by rw [hc])] at hch
            exact absurd hch (List.not_mem_nil ch)
          | false =>
            rw [if_neg (by rw [hc]; simp)] at hch
            rw [List.mem_singleton.mp hch]
            exact hcur
        · exact groupsOfGo_mem_length b hb seg.length seg ch hch
      · exact ih [] ch (by simp) hch
    · by_cases h2 : b < cur.length + seg.length
      · rw [if_neg h1, if_pos h2] at hch
        rcases List.mem_cons.mp hch with hch | hch
        · rw [hch]; exact hcur
        · exact ih seg ch (by omega) hch
      · rw [if_neg h1, if_neg h2] at hch
        exact ih (cur ++ seg) ch (by rw [List.length_append]; omega) hch

/-- Filtering each list then flattening equals flattening then
filtering. -/
theorem join_map_filter (p : Char → Bool) :
    ∀ (ls : List (List Char)),
      (ls.map (fun l => l.filter p)).flatten = ls.flatten.filter p := by
  intro ls
  induction ls with
  | nil => rfl
  | cons l rest ih =>
    simp only [List.map_cons, List.flatten_cons, List.filter_append, ih]

/-- C6 (spec-modelled): for every text and positive word budget, joining
all chunk words reproduces exactly the non-whitespace characters of the
text in order (the original words, ignoring whitespace); every chunk has
at most the budgeted number of words, including when an oversize sentence
was split into word groups; and empty input yields an empty sequence. -/
theorem textChunker_spec (text : String) (b : Nat) (hb : 1 ≤ b) :
    ((chunk text b).map (fun ch => (ch.map String.data).flatten)).flatten
      = text.data.filter (fun c => !isJsWhitespace c)
    ∧ (∀ ch ∈ chunk text b, ch.length ≤ b)
    ∧ chunk "" b = [] := by
  refine ⟨?_, ?_, rfl⟩
  · unfold chunk
    rw [List.map_map]
    have hwrap : ∀ ws : List (List Char),
        ((fun ch => (List.map String.data ch).flatten) ∘
          (fun ws => ws.map (fun w => String.mk w))) ws = ws.flatten := by
      intro ws
      show ((ws.map (fun w => String.mk w)).map String.data).flatten = ws.flatten
      rw [List.map_map]
      have hid : (String.data ∘ fun w => String.mk w) = id :=
        funext (fun w => rfl)
      rw [hid, List.map_id]
    rw [List.map_congr_left (fun ws _ => hwrap ws)]
    rw [← List.flatten_flatten]
    rw [packLoop_join b hb _ []]
    simp only [List.nil_append]
    rw [List.flatten_flatten]
    rw [List.map_map]
    have hseg : ∀ s : List Char,
        (List.flatten ∘ fun seg => wordsAux seg []) s =
          s.filter (fun c => !isJsWhitespace c) := by
      intro s
      show (wordsAux s []).flatten = s.filter (fun c => !isJsWhitespace c)
      rw [wordsAux_join s []]
      rfl
    rw [List.map_congr_left (fun s _ => hseg s)]
    rw [join_map_filter]
    rw [splitSentencesAux_join text.data []]
    rfl
  · intro ch hch
    unfold chunk at hch
    rcases List.mem_map.mp hch with ⟨ws, hws, hwseq⟩
    rw [← hwseq, List.length_map]
    exact packLoop_mem_length b hb _ [] ws (by simp) hws

/-- Witness for C6 at the spec's scenario-A text and a budget of three
words per chunk. -/
theorem textChunker_spec_witness :
    (∀ ch ∈ chunk "Hello world. This is a test." 3, ch.length ≤ 3)
    ∧ chunk "Hello world. This is a test." 3 =
      [["Hello", "world."], ["This", "is", "a"], ["test."]] :=
  ⟨(textChunker_spec "Hello world. This is a test." 3 (by decide)).2.1, rfl⟩

/-- The head surviving `dropWhile` falsifies the dropped predicate. -/
theorem dropWhile_head_not (p : Char → Bool) :
    ∀ (l : List Char) (a : Char),
      (l.dropWhile p).head? = some a → p a = false := by
  intro l
  induction l with
  | nil => intro a ha; exact absurd ha (by simp)
  | cons x xs ih =>
    intro a ha
    rw [List.dropWhile_cons] at ha
    by_cases hx : p x = true
    · rw [if_pos hx] at ha
      exact ih a ha
    · rw [if_neg hx] at ha
      simp only [List.head?_cons, Option.some.injEq] at ha
      rw [← ha]
      simpa using hx

/-- A trimmed text never ends in whitespace. -/
theorem jsTrimL_getLast (x : List Char) (c : Char)
    (h : (jsTrimL x).getLast? = some c) : isJsWhitespace c = false := by
  unfold jsTrimL at h
  rw [List.getLast?_reverse] at h
  exact dropWhile_head_not isJsWhitespace _ c h

/-- A cleaned line text never ends in whitespace. -/
theorem cleanLineText_getLast (cs : List Char) (c : Char)
    (h : (cleanLineText cs).getLast? = some c) : isJsWhitespace c = false :=
  jsTrimL_getLast (removeBracketed (jsTrimL cs)) c h

/-- Space-joining a cons: the head, then a space and the rest when the
rest is nonempty. -/
theorem joinSpace_cons (x : List Char) (xs : List (List Char)) :
    joinSpace (x :: xs) =
      x ++ (if xs.isEmpty then [] else ' ' :: joinSpace xs) := by
  cases xs with
  | nil => simp [joinSpace]
  | cons y ys => simp [joinSpace]

/-- The walk fold coincides with the separator-inserting join fold over
the cleaned texts, from any accumulator not ending in whitespace. -/
theorem concatFold_spec :
    ∀ (ts : List (List Char)) (acc : List Char),
      (∀ c, acc.getLast? = some c → isJsWhitespace c = false) →
      ts.foldl concatStep acc = (cleanedTextsOf ts).foldl stepJoin acc := by
  intro ts
  induction ts with
  | nil =>
    intro acc _
    rfl
  | cons t ts ih =>
    intro acc hacc
    simp only [List.foldl_cons]
    by_cases hce : (cleanLineText t).isEmpty = true
    · have hstep : concatStep acc t = acc := by
        unfold concatStep
        rw [if_pos hce]
      have hclean : cleanedTextsOf (t :: ts) = cleanedTextsOf ts := by
        simp [cleanedTextsOf, List.filter_cons, hce]
      rw [hstep, hclean, ih acc hacc]
    · have hcne : cleanLineText t ≠ [] := by
        intro hq
        rw [hq] at hce
        exact hce rfl
      have hclean : cleanedTextsOf (t :: ts) =
          cleanLineText t :: cleanedTextsOf ts := by
        simp [cleanedTextsOf, List.filter_cons, hce]
      have hstep : concatStep acc t = stepJoin acc (cleanLineText t) := by
        unfold concatStep stepJoin
        rw [if_neg (by simp [hce])]
        cases haccE : acc.isEmpty with
        | true =>
          have : acc = [] := List.isEmpty_iff.mp haccE
          subst this
          rfl
        | false =>
          have hlast : acc.getLast? ≠ some ' ' := by
            intro hq
            have := hacc ' ' hq
            exact absurd this (by decide)
          simp only [Bool.false_eq_true, if_false]
          rw [if_neg hlast]
      have hinv : ∀ c, (stepJoin acc (cleanLineText t)).getLast? = some c →
          isJsWhitespace c = false := by
        intro c hc
        unfold stepJoin at hc
        cases haccE : acc.isEmpty with
        | true =>
          rw [if_pos (by rw [haccE])] at hc
          exact cleanLineText_getLast t c hc
        | false =>
          rw [if_neg (by rw [haccE]; simp)] at hc
          rw [List.getLast?_append] at hc
          have hsp : (' ' :: cleanLineText t).getLast? =
              (cleanLineText t).getLast? := by
            cases hct : cleanLineText t with
            | nil => exact absurd hct hcne
            | cons d ds => rw [List.getLast?_cons_cons]
          rw [hsp] at hc
          obtain ⟨lc, hlc⟩ : ∃ lc, (cleanLineText t).getLast? = some lc := by
            cases hct : cleanLineText t with
            | nil => exact absurd hct hcne
            | cons d ds =>
              exact ⟨(d :: ds).getLast (by simp),
                List.getLast?_eq_getLast (d :: ds) (by simp)⟩
          rw [hlc] at hc
          have hred : (some lc).or acc.getLast? = some lc := rfl
          rw [hred] at hc
          simp only [Option.some.injEq] at hc
          rw [hc] at hlc
          exact cleanLineText_getLast t c hlc
      rw [hstep, hclean]
      simp only [List.foldl_cons]
      exact ih (stepJoin acc (cleanLineText t)) hinv

/-- From a nonempty accumulator, the join fold appends a space before
each remaining text. -/
theorem joinSpace_foldl_acc :
    ∀ (cs : List (List Char)) (acc : List Char), acc ≠ [] →
      cs.foldl stepJoin acc =
        acc ++ (if cs.isEmpty then [] else ' ' :: joinSpace cs) := by
  intro cs
  induction cs with
  | nil =>
    intro acc _
    simp
  | cons c cs1 ih =>
    intro acc hacc
    simp only [List.foldl_cons]
    have hstep : stepJoin acc c = acc ++ ' ' :: c := by
      unfold stepJoin
      rw [if_neg (by simp [hacc])]
    rw [hstep, ih (acc ++ ' ' :: c) (by simp)]
    rw [joinSpace_cons]
    simp only [List.isEmpty_cons, Bool.false_eq_true, if_false]
    simp [List.append_assoc]

/-- Starting empty, the join fold over nonempty texts is exactly the
space-join. -/
theorem joinSpace_foldl (cs : List (List Char)) (h : ∀ x ∈ cs, x ≠ []) :
    cs.foldl stepJoin [] = joinSpace cs := by
  cases cs with
  | nil => rfl
  | cons c cs1 =>
    simp only [List.foldl_cons]
    have hstep : stepJoin [] c = c := rfl
    rw [hstep, joinSpace_foldl_acc cs1 c (h c (List.mem_cons_self c cs1))]
    rw [joinSpace_cons]

/-- Every cleaned text that survives the filter is nonempty. -/
theorem cleanedTextsOf_ne_nil (ts : List (List Char)) :
    ∀ x ∈ cleanedTextsOf ts, x ≠ [] := by
  intro x hx
  unfold cleanedTextsOf at hx
  have := (List.mem_filter.mp hx).2
  intro hq
  rw [hq] at this
  exact absurd this (by simp)

/-- C10 (amended): the flattened no-timestamp text equals the per-line
cleaned texts — trimmed, stripped of same-line lazy bracketed matches,
trimmed again, dropping those that become empty — joined with single
spaces.  (Bracketed spans can still survive when a line holds an
unmatched bracket or a line terminator inside the brackets.) -/
theorem getConcatenatedText_spec (lines : List TranscriptLine) :
    getConcatenatedTextWithoutTimestamps lines =
      String.mk (joinSpace
        (cleanedTextsOf (lines.map (fun l => l.transcriptText.data)))) := by
  unfold getConcatenatedTextWithoutTimestamps concatTexts
  have h := concatFold_spec (lines.map (fun l => l.transcriptText.data)) []
    (by intro c hc; exact absurd hc (by simp))
  rw [h]
  rw [joinSpace_foldl _ (cleanedTextsOf_ne_nil _)]

/-- C10 counterexample: one line opening a bracket and the next closing
one flatten to a text that still contains a bracketed span, so the
flattened text is not free of bracketed annotations. -/
theorem getConcatenatedText_bracket_span :
    getConcatenatedTextWithoutTimestamps
      [sampleOpenBracketLine, sampleCloseBracketLine] = "[a b]"
    ∧ hasBracketedSpan ("[a b]".data) = true :=
  ⟨rfl, by decide⟩

end TCE

